import Mathlib

/-!
Verification of the LeaseQ shared-filesystem task-queue core.

This file gives a shallow embedding of the queue's data model and of the
operations implemented in `leaseq-core/src/fs.rs`, `leaseq/src/commands/add.rs`,
`leaseq/src/commands/tasks.rs` and the runner loop
(`leaseq-runner/src/main.rs`, duplicated in `leaseq/src/commands/run.rs`),
and proves or refutes the specification's claims about them.

Modelling conventions:
- strings are Lean `String`s; Rust byte-lexicographic comparison of UTF-8
  strings coincides with codepoint-lexicographic comparison, which is the
  order on `List Char` underlying Lean's `String` order;
- directories are association lists from file basenames to file contents;
- JSON (de)serialisation is modelled by a `FileContent` sum: a well-formed
  record of the wrong shape or a malformed file both fail to decode;
- unix timestamps are integers (seconds), durations are naturals;
- a Rust panic is modelled by an `Option` result being `none`.
-/

namespace LeaseQ

/-- Boolean strict lexicographic comparison on character lists; this is the
decision procedure for the `List.lt` order that underlies `String < String`
(and agrees with Rust's byte-wise comparison of the UTF-8 encodings). -/
def lexLt : List Char → List Char → Bool
  | [], [] => false
  | [], _ :: _ => true
  | _ :: _, [] => false
  | a :: as, b :: bs => if a < b then true else if b < a then false else lexLt as bs

/-- Boolean version of `String <`. -/
def strLtB (s t : String) : Bool := lexLt s.data t.data

/-- Boolean version of `String ≤` (total order used for directory sorting,
matching Rust's `Vec::sort` on paths within one directory). -/
def strLeB (s t : String) : Bool := !strLtB t s

/-- Rust `str::starts_with`. -/
def strStarts (s p : String) : Bool := p.data.isPrefixOf s.data

/-- Rust `str::ends_with`. -/
def strEnds (s p : String) : Bool := p.data.isSuffixOf s.data

theorem lexLt_iff (l₁ l₂ : List Char) :
    lexLt l₁ l₂ = true ↔ List.Lex (· < ·) l₁ l₂ := by
  induction l₁ generalizing l₂ with
  | nil =>
    cases l₂ with
    | nil => simp [lexLt]
    | cons b bs => simp [lexLt]; exact List.Lex.nil
  | cons a as ih =>
    cases l₂ with
    | nil => simp [lexLt]
    | cons b bs =>
      by_cases hab : a < b
      · simp [lexLt, hab]
        exact List.Lex.rel hab
      · by_cases hba : b < a
        · simp [lexLt, hab, hba]
          intro h
          cases h with
          | rel h => exact hab h
          | cons _ => exact lt_irrefl a hba
        · have hEq : a = b := le_antisymm (not_lt.mp hba) (not_lt.mp hab)
          subst hEq
          simp only [lexLt, if_neg hab, if_neg hba]
          rw [ih bs]
          constructor
          · intro h; exact List.Lex.cons h
          · intro h
            cases h with
            | rel h => exact absurd h hab
            | cons h => exact h

theorem strLtB_iff (s t : String) : strLtB s t = true ↔ s < t := by
  rw [String.lt_iff_toList_lt]
  exact lexLt_iff s.data t.data

theorem strLeB_iff (s t : String) : strLeB s t = true ↔ s ≤ t := by
  rw [strLeB, Bool.not_eq_true', ← not_lt (α := String)]
  constructor
  · intro h hc
    exact absurd ((strLtB_iff t s).mpr hc) (by simp [h])
  · intro h
    by_contra hc
    exact h ((strLtB_iff t s).mp (by revert hc; cases strLtB t s <;> simp))

theorem strLeB_total (s t : String) : strLeB s t = true ∨ strLeB t s = true := by
  rw [strLeB_iff, strLeB_iff]
  exact le_total s t

theorem strLeB_trans {a b c : String} (h₁ : strLeB a b = true)
    (h₂ : strLeB b c = true) : strLeB a c = true := by
  rw [strLeB_iff] at *
  exact le_trans h₁ h₂

/-- Insertion of a string into a sorted list, the helper of `sortStrings`. -/
def insertSorted (a : String) : List String → List String
  | [] => [a]
  | b :: bs => if strLeB a b then a :: b :: bs else b :: insertSorted a bs

/-- Sorting of directory listings: Rust's `entries.sort()` restricted to paths
sharing one parent directory, i.e. lexicographic sort of the basenames. -/
def sortStrings : List String → List String
  | [] => []
  | a :: as => insertSorted a (sortStrings as)

theorem mem_insertSorted {x a : String} {l : List String} :
    x ∈ insertSorted a l ↔ x = a ∨ x ∈ l := by
  induction l with
  | nil => simp [insertSorted]
  | cons b bs ih =>
    by_cases h : strLeB a b
    · simp [insertSorted, h]
    · simp [insertSorted, h, ih]
      tauto

theorem mem_sortStrings {x : String} {l : List String} :
    x ∈ sortStrings l ↔ x ∈ l := by
  induction l with
  | nil => simp [sortStrings]
  | cons a as ih => simp [sortStrings, mem_insertSorted, ih]

theorem pairwise_insertSorted {a : String} {l : List String}
    (h : l.Pairwise (fun x y => strLeB x y = true)) :
    (insertSorted a l).Pairwise (fun x y => strLeB x y = true) := by
  induction l with
  | nil => simp [insertSorted]
  | cons b bs ih =>
    rcases List.pairwise_cons.mp h with ⟨hb, hbs⟩
    by_cases hab : strLeB a b
    · simp only [insertSorted, if_pos hab]
      refine List.pairwise_cons.mpr ⟨?_, h⟩
      intro y hy
      rcases List.mem_cons.mp hy with rfl | hy
      · exact hab
      · exact strLeB_trans hab (hb y hy)
    · have hba : strLeB b a = true := (strLeB_total a b).resolve_left (by simp [hab])
      simp only [insertSorted, if_neg hab]
      refine List.pairwise_cons.mpr ⟨?_, ih hbs⟩
      intro y hy
      rcases mem_insertSorted.mp hy with rfl | hy
      · exact hba
      · exact hb y hy

theorem pairwise_sortStrings (l : List String) :
    (sortStrings l).Pairwise (fun x y => strLeB x y = true) := by
  induction l with
  | nil => simp [sortStrings]
  | cons a as ih => exact pairwise_insertSorted ih

theorem head_sortStrings_le {l : List String} {f : String} {rest : List String}
    (h : sortStrings l = f :: rest) {x : String} (hx : x ∈ l) :
    strLeB f x = true := by
  have hp := pairwise_sortStrings l
  rw [h] at hp
  have hx' : x ∈ sortStrings l := mem_sortStrings.mpr hx
  rw [h] at hx'
  rcases List.mem_cons.mp hx' with rfl | hx'
  · rcases strLeB_total x x with h' | h' <;> exact h'
  · exact (List.pairwise_cons.mp hp).1 x hx'

/-- Fuel-driven worker for `trimEndList`: each step strips at least one
character, so fuel `s.length` always suffices for a nonempty pattern. -/
def trimEndLoop : Nat → List Char → List Char → List Char
  | 0, s, _ => s
  | fuel + 1, s, p =>
    if p ≠ [] ∧ p.isSuffixOf s then trimEndLoop fuel (s.take (s.length - p.length)) p
    else s

/-- Rust `str::trim_end_matches` on the underlying character lists:
repeatedly strip the suffix `p` (for nonempty `p`). -/
def trimEndList (s p : List Char) : List Char := trimEndLoop s.length s p

/-- Rust `str::trim_end_matches`. -/
def trimEnd (s p : String) : String := ⟨trimEndList s.data p.data⟩

/-- Fuel-driven worker for `replaceList`: each step consumes at least one
character of the subject, so fuel `s.length` always suffices. -/
def replaceLoop : Nat → List Char → List Char → List Char → List Char
  | 0, s, _, _ => s
  | fuel + 1, s, pat, rep =>
    match s with
    | [] => []
    | c :: rest =>
      if pat ≠ [] ∧ pat.isPrefixOf (c :: rest) then
        rep ++ replaceLoop fuel ((c :: rest).drop pat.length) pat rep
      else
        c :: replaceLoop fuel rest pat rep

/-- Rust `str::replace` on the underlying character lists: replace all
non-overlapping occurrences of `pat` (nonempty) left to right. -/
def replaceList (s pat rep : List Char) : List Char := replaceLoop s.length s pat rep

/-- Rust `str::replace`. -/
def strReplace (s pat rep : String) : String := ⟨replaceList s.data pat.data rep.data⟩

/-! ## Data model (`leaseq-core/src/models.rs`)

Timestamps are unix seconds as integers; `runtime_s` (an `f64` in the source)
only ever carries the integral values proved about here. -/

/-- The wire-stable task record a submitter deposits (`models::TaskSpec`). -/
structure TaskSpec where
  task_id : String
  idempotency_key : String
  lease_id : String
  target_node : String
  seq : Nat
  uuid : String
  created_at : Int
  cwd : String
  env : List (String × String)
  gpus : Nat
  command : String
deriving Repr, DecidableEq

/-- The record a runner writes at completion or skip (`models::TaskResult`). -/
structure TaskResult where
  task_id : String
  idempotency_key : String
  node : String
  started_at : Int
  finished_at : Int
  exit_code : Int
  stdout : String
  stderr : String
  runtime_s : Int
  command : String
  gpus_requested : Nat
  gpus_assigned : String
deriving Repr, DecidableEq

/-- The liveness record a runner overwrites every tick (`models::Heartbeat`). -/
structure Heartbeat where
  node : String
  ts : Int
  running_task_id : Option String
  pending_estimate : Nat
  runner_pid : Nat
  version : String
deriving Repr, DecidableEq

/-- The cancel-request record (`commands/cancel.rs` / runner `CancelCommand`). -/
structure CancelCommand where
  task_id : String
  requested_at : Int
deriving Repr, DecidableEq

/-- Content of a file on the shared filesystem. `junk` stands for a file whose
bytes do not decode as the record type a reader asks for; decoding a record of
the wrong shape also fails (serde would miss required fields). -/
inductive FileContent
  | spec (s : TaskSpec)
  | result (r : TaskResult)
  | heartbeat (h : Heartbeat)
  | cancel (c : CancelCommand)
  | junk
deriving Repr, DecidableEq

/-- JSON decoding of a `TaskSpec` (`fs::read_json::<TaskSpec>`). -/
def decodeSpec : FileContent → Option TaskSpec
  | .spec s => some s
  | _ => none

/-- JSON decoding of a `TaskResult` (`fs::read_json::<TaskResult>`). -/
def decodeResult : FileContent → Option TaskResult
  | .result r => some r
  | _ => none

/-- JSON decoding of a `Heartbeat` (`fs::read_json::<Heartbeat>`). -/
def decodeHb : FileContent → Option Heartbeat
  | .heartbeat h => some h
  | _ => none

/-- A directory: an association list from basenames to file contents.
All entries are regular files (the queue's leaf directories hold no
subdirectories). A missing directory and an empty one are both `[]`,
indistinguishable to callers exactly as `fs.rs` requires. -/
abbrev Dir := List (String × FileContent)

/-- Basenames present in a directory. -/
def dirNames (d : Dir) : List String := d.map Prod.fst

/-- Read the content stored under basename `n` (first match). -/
def lookupFile (d : Dir) (n : String) : Option FileContent :=
  (d.find? (fun e => e.1 == n)).map (·.2)

/-- Overwrite (or create) the file with basename `n`; models the atomic
temp-file-plus-rename overwrite, which readers see as instantaneous. -/
def writeFile (d : Dir) (n : String) (c : FileContent) : Dir :=
  d.filter (fun e => e.1 != n) ++ [(n, c)]

/-- Remove the file with basename `n` (rename-away or `remove_file`). -/
def removeFile (d : Dir) (n : String) : Dir :=
  d.filter (fun e => e.1 != n)

theorem lookupFile_writeFile_self (d : Dir) (n : String) (c : FileContent) :
    lookupFile (writeFile d n c) n = some c := by
  induction d with
  | nil => simp [lookupFile, writeFile]
  | cons e es ih =>
    by_cases h : e.1 = n
    · simp only [writeFile, lookupFile, List.filter_cons] at ih ⊢
      simp only [h, bne_self_eq_false, Bool.false_eq_true, if_false]
      exact ih
    · simp only [writeFile, lookupFile, List.filter_cons] at ih ⊢
      rw [(by simp [h] : (e.1 != n) = true)]
      simp only [if_true, List.cons_append]
      rw [List.find?_cons_of_neg]
      · exact ih
      · simp [h]

theorem lookupFile_writeFile_ne (d : Dir) (n m : String) (c : FileContent)
    (h : m ≠ n) : lookupFile (writeFile d n c) m = lookupFile d m := by
  induction d with
  | nil =>
    simp only [writeFile, lookupFile, List.filter_nil, List.nil_append]
    rw [List.find?_cons_of_neg _ (by simp only [beq_iff_eq]; exact Ne.symm h)]
  | cons e es ih =>
    by_cases he : e.1 = n
    · simp only [writeFile, lookupFile, List.filter_cons] at ih ⊢
      simp only [he, bne_self_eq_false, Bool.false_eq_true, if_false]
      rw [List.find?_cons_of_neg (l := es)]
      · exact ih
      · simp [he, Ne.symm h]
    · simp only [writeFile, lookupFile, List.filter_cons] at ih ⊢
      rw [(by simp [he] : (e.1 != n) = true)]
      simp only [if_true, List.cons_append]
      by_cases hm : e.1 = m
      · rw [List.find?_cons_of_pos, List.find?_cons_of_pos] <;> simp [hm]
      · rw [List.find?_cons_of_neg, List.find?_cons_of_neg]
        · exact ih
        · simp [hm]
        · simp [hm]

theorem lookupFile_removeFile_self (d : Dir) (n : String) :
    lookupFile (removeFile d n) n = none := by
  induction d with
  | nil => simp [lookupFile, removeFile]
  | cons e es ih =>
    by_cases h : e.1 = n
    · simp only [removeFile, lookupFile, List.filter_cons] at ih ⊢
      simp only [h, bne_self_eq_false, Bool.false_eq_true, if_false]
      exact ih
    · simp only [removeFile, lookupFile, List.filter_cons] at ih ⊢
      rw [(by simp [h] : (e.1 != n) = true)]
      simp only [if_true]
      rw [List.find?_cons_of_neg]
      · exact ih
      · simp [h]

theorem mem_writeFile {d : Dir} {n m : String} {c x : FileContent} :
    (m, x) ∈ writeFile d n c ↔ (m = n ∧ x = c) ∨ ((m, x) ∈ d ∧ m ≠ n) := by
  unfold writeFile
  simp only [List.mem_append, List.mem_filter, List.mem_singleton, Prod.mk.injEq,
    bne_iff_ne, ne_eq]
  tauto

theorem mem_removeFile {d : Dir} {n m : String} {x : FileContent} :
    (m, x) ∈ removeFile d n ↔ (m, x) ∈ d ∧ m ≠ n := by
  unfold removeFile
  simp [List.mem_filter]

/-! ## Filesystem primitives (`leaseq-core/src/fs.rs`) -/

/-- Basename of the temporary file `atomic_write_json` writes before the
atomic rename: `format!(".tmp.{}.{}", basename, uuid)` (fs.rs line 19). -/
def tmpName (basename uuid : String) : String :=
  ".tmp." ++ basename ++ "." ++ uuid

/-- Embedding of `fs::list_files_sorted`: the immediate regular-file children
of a directory, excluding dotfiles, sorted lexicographically; a missing
directory yields the empty listing. -/
def list_files_sorted (d : Dir) : List String :=
  sortStrings ((dirNames d).filter (fun n => !(strStarts n ".")))

theorem mem_list_files_sorted {d : Dir} {x : String} :
    x ∈ list_files_sorted d ↔ x ∈ dirNames d ∧ strStarts x "." = false := by
  unfold list_files_sorted
  rw [mem_sortStrings, List.mem_filter]
  simp

theorem tmpName_starts_dot (basename uuid : String) :
    strStarts (tmpName basename uuid) "." = true := by
  show (".").data.isPrefixOf (".tmp." ++ basename ++ "." ++ uuid).data = true
  have : (".tmp." ++ basename ++ "." ++ uuid).data
      = '.' :: (("tmp." ++ basename ++ "." ++ uuid).data) := by
    simp [String.data_append]
  rw [this]
  simp [List.isPrefixOf]

/-- C10: every temporary file created by `atomic_write_json` has a basename
beginning with `.` (format `.tmp.<basename>.<uuid>`), and `list_files_sorted`
excludes all dotfiles, so a concurrent lister of the same directory never has
an in-progress temporary file returned to it, for every target basename,
uuid, and directory state. -/
theorem C10_tmp_file_never_listed :
    ∀ (basename uuid : String) (d : Dir),
      strStarts (tmpName basename uuid) "." = true ∧
      tmpName basename uuid ∉ list_files_sorted d := by
  intro basename uuid d
  refine ⟨tmpName_starts_dot basename uuid, ?_⟩
  intro hmem
  have h := (mem_list_files_sorted.mp hmem).2
  rw [tmpName_starts_dot basename uuid] at h
  exact Bool.true_eq_false.mp h

/-! ## Submitter node selection (`leaseq/src/commands/add.rs`) -/

/-- Errors surfaced by `add_task`'s node selection. -/
inductive AddError where
  | noActiveNodes
deriving Repr, DecidableEq

/-- Rust `Path::file_stem`: the basename with its extension (the part after
the last dot) removed; a name with no dot, or whose only dot leads, is
returned whole. -/
def fileStem (n : String) : String :=
  let ext := n.data.reverse.takeWhile (fun c => c ≠ '.')
  if ext.length = n.data.length then n
  else if ext.length + 1 = n.data.length then n
  else ⟨n.data.take (n.data.length - ext.length - 1)⟩

/-- Embedding of the node-selection logic of `add_task` (add.rs lines 20-34):
an explicit `--node` wins; a `local:` lease uses the hostname; otherwise the
stem of the first (sorted) file in `hb/` is used, and the only failure is an
empty `hb/` listing. The heartbeat file contents are never read. -/
def select_node (nodeArg : Option String) (lease_id hostname : String)
    (hb : Dir) : Except AddError String :=
  match nodeArg with
  | some n => Except.ok n
  | none =>
    if strStarts lease_id "local:" then Except.ok hostname
    else
      match list_files_sorted hb with
      | [] => Except.error AddError.noActiveNodes
      | f :: _ => Except.ok (fileStem f)

/-- C1 (refuted, code bug): the claim — matching the repository's own test
`test_add_picks_dead_node` — wants node selection to reject a node whose only
heartbeat is one hour stale with `NoActiveNodes`. The code selects the first
sorted file of `hb/` without ever reading its timestamp: with the single
heartbeat `dead-node.json` written at `ts = 6400` while submission happens at
`now = 10000` (one hour later), `add_task` selects `dead-node` and does not
fail; the first conjunct shows the selection is the same for every possible
content of the heartbeat file, so no freshness check occurs at all. -/
theorem C1_node_selection_ignores_heartbeat_age :
    (∀ c : FileContent,
      select_node none "job-dead-node-test" "host" [("dead-node.json", c)]
        = Except.ok "dead-node") ∧
    select_node none "job-dead-node-test" "host"
      [("dead-node.json", FileContent.heartbeat
        { node := "dead-node", ts := 6400, running_task_id := none,
          pending_estimate := 0, runner_pid := 1234, version := "0.1.0" })]
      ≠ Except.error AddError.noActiveNodes := by
  constructor
  · intro c
    rfl
  · intro h
    have h1 : select_node none "job-dead-node-test" "host"
        [("dead-node.json", FileContent.heartbeat
          { node := "dead-node", ts := 6400, running_task_id := none,
            pending_estimate := 0, runner_pid := 1234, version := "0.1.0" })]
        = Except.ok "dead-node" := rfl
    rw [h1] at h
    exact Except.noConfusion h

/-! ## Runner loop (`leaseq-runner/src/main.rs`, identical to
`leaseq/src/commands/run.rs`)

The model is per node: each `Dir` field is the runner's own `<node>`
subdirectory (`inbox/<node>/`, `claimed/<node>/`, `done/<node>/`,
`control/<node>/`), except `hb`, which is the shared `hb/` directory.
`spawned` records every process the runner has spawned, `now` is wall-clock
unix seconds, and the child process's exit code and duration enter as
parameters (the environment's choice). -/

/-- Shared filesystem state visible to one runner. -/
structure World where
  inbox : Dir
  claimed : Dir
  done : Dir
  control : Dir
  hb : Dir
  logs : List String
  spawned : List TaskSpec
  now : Int
deriving Repr, DecidableEq

/-- In-memory runner state (struct `Runner`): the node name and the dedup
cache `executed_keys` (a `HashSet` in the source; a list read up to
membership here). -/
structure Runner where
  node : String
  executed_keys : List String
deriving Repr, DecidableEq

/-- The heartbeat record `update_heartbeat` writes (main.rs lines 172-188). -/
def hbRecord (r : Runner) (running : Option String) (now : Int) : Heartbeat :=
  { node := r.node, ts := now, running_task_id := running,
    pending_estimate := 0, runner_pid := 0, version := "0.1.0" }

/-- Embedding of `Runner::update_heartbeat`: atomically overwrite
`hb/<node>.json` with a fresh timestamp. -/
def update_heartbeat (r : Runner) (running : Option String) (w : World) : World :=
  let content := FileContent.heartbeat (hbRecord r running w.now)
  { w with hb := writeFile w.hb (r.node ++ ".json") content }

/-- Embedding of `Runner::poll_and_claim` (main.rs lines 190-219): list the
inbox sorted; empty listing is an idle return; otherwise rename the first
entry into `claimed/` keeping the filename. `renameOk` is the environment's
verdict on the atomic rename (false: the file vanished, e.g. a race); the
failure path only warns and returns idle, surfacing no error. -/
def poll_and_claim (w : World) (renameOk : Bool) : Option String × World :=
  match list_files_sorted w.inbox with
  | [] => (none, w)
  | f :: _ =>
    if renameOk then
      (some f,
        { w with
          inbox := removeFile w.inbox f,
          claimed := writeFile w.claimed f
            ((lookupFile w.inbox f).getD FileContent.junk) })
    else (none, w)

/-- Basename of a dedup-skip record: `trim_end_matches(".json")` plus
`.skipped.json` (main.rs line 249). -/
def skippedName (n : String) : String := trimEnd n ".json" ++ ".skipped.json"

/-- Basename of an executed-task record: `replace(".json", ".result.json")`
when the claimed name ends in `.json`, else the suffix is appended
(main.rs lines 317-321). -/
def resultFileName (n : String) : String :=
  if strEnds n ".json" then strReplace n ".json" ".result.json"
  else n ++ ".result.json"

/-- Placeholder GPU assignment (main.rs lines 291-296): devices
`0,1,...,gpus-1` joined by commas, empty for zero GPUs. -/
def gpusAssigned (g : Nat) : String :=
  if g > 0 then String.intercalate "," ((List.range g).map toString) else ""

/-- Embedding of `Runner::execute_task` (main.rs lines 221-341). Returns the
new runner state, the new world, and the heartbeat writes performed during
the call as `(wall-clock time, record)` pairs. The decode-failure path
returns with nothing modified, the duplicate path writes the skip record and
archives the spec without spawning, and the execute path runs the child to
completion — `status().await` — before anything else happens, advancing
`now` by the child's duration `dur`. -/
def execute_task (r : Runner) (w : World) (name : String) (exitCode : Int)
    (dur : Nat) : Runner × World × List (Int × Heartbeat) :=
  match decodeSpec ((lookupFile w.claimed name).getD FileContent.junk) with
  | none => (r, w, [])
  | some spec =>
    if spec.idempotency_key ∈ r.executed_keys then
      let res : TaskResult :=
        { task_id := spec.task_id, idempotency_key := spec.idempotency_key,
          node := r.node, started_at := w.now, finished_at := w.now,
          exit_code := 0, stdout := "", stderr := "", runtime_s := 0,
          command := spec.command, gpus_requested := spec.gpus,
          gpus_assigned := "" }
      let c := (lookupFile w.claimed name).getD FileContent.junk
      (r,
        { w with
          done := writeFile (writeFile w.done (skippedName name)
            (FileContent.result res)) name c,
          claimed := removeFile w.claimed name },
        [])
    else
      let w₁ := update_heartbeat r (some spec.task_id) w
      let w₂ := { w₁ with
        logs := w₁.logs ++ [spec.task_id ++ ".out", spec.task_id ++ ".err"] }
      let w₃ := { w₂ with spawned := w₂.spawned ++ [spec], now := w₂.now + dur }
      let res : TaskResult :=
        { task_id := spec.task_id, idempotency_key := spec.idempotency_key,
          node := r.node, started_at := w.now, finished_at := w.now + dur,
          exit_code := exitCode,
          stdout := "logs/" ++ spec.task_id ++ ".out",
          stderr := "logs/" ++ spec.task_id ++ ".err",
          runtime_s := dur, command := spec.command,
          gpus_requested := spec.gpus, gpus_assigned := gpusAssigned spec.gpus }
      let r' : Runner :=
        { r with executed_keys := r.executed_keys ++ [spec.idempotency_key] }
      let c := (lookupFile w.claimed name).getD FileContent.junk
      let w₄ := { w₃ with
        done := writeFile (writeFile w₃.done (resultFileName name)
          (FileContent.result res)) name c,
        claimed := removeFile w₃.claimed name }
      let w₅ := update_heartbeat r' none w₄
      (r', w₅,
        [(w.now, hbRecord r (some spec.task_id) w.now),
         (w₄.now, hbRecord r' none w₄.now)])

/-- One iteration of `Runner::run` (main.rs lines 146-170): wait one tick
(one second), write the idle-or-running heartbeat, poll-and-claim, and — if a
task was claimed — execute it to completion before the next iteration. -/
def tick (r : Runner) (w : World) (exitCode : Int) (dur : Nat)
    (renameOk : Bool) : Runner × World × List (Int × Heartbeat) :=
  let w₀ : World := { w with now := w.now + 1 }
  let w₁ := update_heartbeat r none w₀
  let e₀ : Int × Heartbeat := (w₀.now, hbRecord r none w₀.now)
  match poll_and_claim w₁ renameOk with
  | (some name, w₂) =>
    let out := execute_task r w₂ name exitCode dur
    (out.1, out.2.1, e₀ :: out.2.2)
  | (none, w₂) => (r, w₂, [e₀])

/-- What a reader of `hb/<node>.json` observes at time `t`, given the
chronological list of heartbeat writes: the last record written no later
than `t`. -/
def readHb (log : List (Int × Heartbeat)) (t : Int) : Option Heartbeat :=
  ((log.filter (fun e => decide (e.1 ≤ t))).getLast?).map (·.2)

theorem poll_and_claim_control (w : World) (renameOk : Bool) :
    (poll_and_claim w renameOk).2.control = w.control := by
  unfold poll_and_claim
  cases list_files_sorted w.inbox with
  | nil => rfl
  | cons f l => cases renameOk <;> rfl

theorem execute_task_control (r : Runner) (w : World) (name : String)
    (exitCode : Int) (dur : Nat) :
    ((execute_task r w name exitCode dur).2.1).control = w.control := by
  unfold execute_task
  cases decodeSpec ((lookupFile w.claimed name).getD FileContent.junk) with
  | none => rfl
  | some spec =>
    by_cases hk : spec.idempotency_key ∈ r.executed_keys
    · simp only [if_pos hk]
    · simp only [if_neg hk]
      rfl

/-- C2 (refuted, code bug): the claim — and §4.2.5 of the spec — has the
runner scan `control/<node>/` at every tick and consume each matching cancel
file. In the source, `Runner::check_cancel` exists but is dead code
(`#[allow(dead_code)]`, no call site): `Runner::run` only heartbeats, claims
and executes. Accordingly one full tick of the loop — for every runner
state, world, child exit code, child duration and rename outcome — leaves
`control/<node>/` exactly unchanged, so a deposited cancel file is never
consumed and the child process is never signalled. -/
theorem C2_cancel_files_never_consumed :
    ∀ (r : Runner) (w : World) (exitCode : Int) (dur : Nat) (renameOk : Bool),
      ((tick r w exitCode dur renameOk).2.1).control = w.control := by
  intro r w exitCode dur renameOk
  unfold tick
  rcases hp : poll_and_claim (update_heartbeat r none { w with now := w.now + 1 })
      renameOk with ⟨o, w₂⟩
  have hctl : w₂.control = w.control := by
    have := poll_and_claim_control
      (update_heartbeat r none { w with now := w.now + 1 }) renameOk
    rw [hp] at this
    exact this
  cases o with
  | none => simpa [hp] using hctl
  | some name =>
    simp only [hp]
    rw [execute_task_control r w₂ name exitCode dur]
    exact hctl

/-- A 10-second task used to exhibit the heartbeat gap during execution. -/
def sleepSpec : TaskSpec :=
  { task_id := "T1", idempotency_key := "K1", lease_id := "local:h",
    target_node := "n", seq := 1, uuid := "u", created_at := 100,
    cwd := "/tmp", env := [], gpus := 0, command := "sleep 10" }

/-- A world whose inbox holds exactly the 10-second task, at time 100. -/
def sleepWorld : World :=
  { inbox := [("0000000000000001_T1_u.json", FileContent.spec sleepSpec)],
    claimed := [], done := [], control := [], hb := [], logs := [],
    spawned := [], now := 100 }

/-- A fresh runner for node `n`. -/
def freshRunner : Runner := { node := "n", executed_keys := [] }

/-- C3 (refuted, code bug): the claim — spec property 6 and the repository's
own test `test_blocking_task_heartbeat_gap` — wants `hb/<node>.json` to keep
a strictly increasing `ts` while a task executes: two reads ≥ 6 s apart
during a ≥ 10 s execution must differ. But `execute_task` awaits the child's
`status()` inside the loop iteration, so the tick cannot fire during
execution: running the 10-second task claimed at time 101 produces exactly
the heartbeat writes at 101 (running) and at 111 (completion), and readers
at times 103 and 109 — six seconds apart, both inside the execution window —
observe the identical `ts = 101`. -/
theorem C3_heartbeat_frozen_during_execution :
    (tick freshRunner sleepWorld 0 10 true).2.1.spawned = [sleepSpec] ∧
    (tick freshRunner sleepWorld 0 10 true).2.1.now = 111 ∧
    (readHb (tick freshRunner sleepWorld 0 10 true).2.2 103).map Heartbeat.ts
      = some 101 ∧
    (readHb (tick freshRunner sleepWorld 0 10 true).2.2 109).map Heartbeat.ts
      = some 101 := by
  refine ⟨rfl, rfl, rfl, rfl⟩

theorem lookupFile_isSome_of_mem {d : Dir} {n : String}
    (h : n ∈ dirNames d) : ∃ c, lookupFile d n = some c := by
  induction d with
  | nil => simp [dirNames] at h
  | cons e es ih =>
    unfold dirNames at h
    rw [List.map_cons, List.mem_cons] at h
    by_cases he : e.1 = n
    · exact ⟨e.2, by unfold lookupFile; rw [List.find?_cons_of_pos _ (by simp [he])]; rfl⟩
    · have h' : n ∈ dirNames es := by
        rcases h with h' | h'
        · exact absurd h'.symm he
        · exact h'
      rcases ih h' with ⟨c, hc⟩
      exact ⟨c, by unfold lookupFile at hc ⊢; rw [List.find?_cons_of_neg _ (by simp [he])]; exact hc⟩

/-- C6: `poll_and_claim` returns idle `(none, no error)` on an empty sorted
listing of `inbox/<node>/`; on a nonempty listing it attempts one atomic
rename of the lexicographically first entry into `claimed/<node>/` under the
same filename — returning that claim on success — and a rename failure is
swallowed (idle return, no error surfaced, world unchanged) so the next tick
retries. -/
theorem C6_poll_and_claim_cases :
    ∀ (w : World) (renameOk : Bool),
      (list_files_sorted w.inbox = [] → poll_and_claim w renameOk = (none, w)) ∧
      (∀ f rest, list_files_sorted w.inbox = f :: rest →
        (∀ x ∈ dirNames w.inbox, strStarts x "." = false → strLeB f x = true) ∧
        (renameOk = false → poll_and_claim w renameOk = (none, w)) ∧
        (renameOk = true →
          (poll_and_claim w renameOk).1 = some f ∧
          lookupFile (poll_and_claim w renameOk).2.claimed f
            = lookupFile w.inbox f ∧
          lookupFile (poll_and_claim w renameOk).2.inbox f = none ∧
          (poll_and_claim w renameOk).2.done = w.done)) := by
  intro w renameOk
  constructor
  · intro h
    unfold poll_and_claim
    rw [h]
  · intro f rest h
    have hsort : sortStrings ((dirNames w.inbox).filter
        (fun n => !(strStarts n "."))) = f :: rest := by
      unfold list_files_sorted at h
      exact h
    refine ⟨?_, ?_, ?_⟩
    · intro x hx hdot
      exact head_sortStrings_le hsort (List.mem_filter.mpr ⟨hx, by simp [hdot]⟩)
    · intro hrn
      unfold poll_and_claim
      rw [h, hrn]
      rfl
    · intro hrn
      have hf : f ∈ dirNames w.inbox := by
        have hmem : f ∈ list_files_sorted w.inbox := by
          rw [h]; exact List.mem_cons_self f rest
        exact (mem_list_files_sorted.mp hmem).1
      rcases lookupFile_isSome_of_mem hf with ⟨c, hc⟩
      have hpoll : poll_and_claim w renameOk = (some f,
          { w with inbox := removeFile w.inbox f,
                   claimed := writeFile w.claimed f
                     ((lookupFile w.inbox f).getD FileContent.junk) }) := by
        unfold poll_and_claim
        rw [h, hrn]
        rfl
      rw [hpoll]
      refine ⟨rfl, ?_, ?_, rfl⟩
      · rw [hc]
        simpa using lookupFile_writeFile_self w.claimed f c
      · exact lookupFile_removeFile_self w.inbox f

/-- Closed witness for `C6_poll_and_claim_cases` at the concrete one-task
world: the single inbox entry is claimed under its own name on success, and
a rename failure yields the idle pair. -/
theorem C6_poll_and_claim_cases_w :
    (poll_and_claim sleepWorld true).1 = some "0000000000000001_T1_u.json" ∧
    lookupFile (poll_and_claim sleepWorld true).2.claimed
      "0000000000000001_T1_u.json"
      = lookupFile sleepWorld.inbox "0000000000000001_T1_u.json" ∧
    lookupFile (poll_and_claim sleepWorld true).2.inbox
      "0000000000000001_T1_u.json" = none ∧
    poll_and_claim sleepWorld false = (none, sleepWorld) := by
  have h1 := (C6_poll_and_claim_cases sleepWorld true).2
    "0000000000000001_T1_u.json" [] rfl
  have h2 := (C6_poll_and_claim_cases sleepWorld false).2
    "0000000000000001_T1_u.json" [] rfl
  have h3 := h1.2.2 rfl
  exact ⟨h3.1, h3.2.1, h3.2.2.1, h2.2.1 rfl⟩

/-- The skipped `TaskResult` the runner writes for a duplicate key
(main.rs lines 233-246). -/
def skippedResult (r : Runner) (spec : TaskSpec) (now : Int) : TaskResult :=
  { task_id := spec.task_id, idempotency_key := spec.idempotency_key,
    node := r.node, started_at := now, finished_at := now,
    exit_code := 0, stdout := "", stderr := "", runtime_s := 0,
    command := spec.command, gpus_requested := spec.gpus, gpus_assigned := "" }

/-- C4: for a claimed task whose `idempotency_key` is already in
`executed_keys`, `execute_task` writes the skipped `TaskResult` (exit code 0,
empty stdout/stderr paths, zero runtime, empty `gpus_assigned`) to
`done/<node>/<original-stem>.skipped.json`, renames the claimed spec into
`done/<node>/` under its original name, leaves the runner state — and so the
key set — unchanged, spawns no process, and performs no heartbeat write. -/
theorem C4_duplicate_key_skipped
    (r : Runner) (w : World) (name : String) (c : FileContent)
    (spec : TaskSpec) (exitCode : Int) (dur : Nat)
    (h1 : lookupFile w.claimed name = some c)
    (h2 : decodeSpec c = some spec)
    (h3 : spec.idempotency_key ∈ r.executed_keys)
    (h4 : skippedName name ≠ name) :
    (execute_task r w name exitCode dur).1 = r ∧
    (execute_task r w name exitCode dur).2.1.spawned = w.spawned ∧
    (execute_task r w name exitCode dur).2.1.logs = w.logs ∧
    lookupFile (execute_task r w name exitCode dur).2.1.done (skippedName name)
      = some (FileContent.result (skippedResult r spec w.now)) ∧
    lookupFile (execute_task r w name exitCode dur).2.1.done name = some c ∧
    lookupFile (execute_task r w name exitCode dur).2.1.claimed name = none ∧
    (execute_task r w name exitCode dur).2.2 = [] := by
  unfold execute_task
  rw [h1]
  simp only [Option.getD_some]
  rw [h2]
  simp only [if_pos h3]
  refine ⟨trivial, trivial, trivial, ?_, ?_, ?_, trivial⟩
  · rw [lookupFile_writeFile_ne _ _ _ _ h4]
    exact lookupFile_writeFile_self w.done (skippedName name) _
  · exact lookupFile_writeFile_self _ name c
  · exact lookupFile_removeFile_self w.claimed name

/-- A runner that has already executed key `K1`. -/
def dupRunner : Runner := { node := "n", executed_keys := ["K1"] }

/-- A world whose `claimed/<node>/` holds the `K1` task, at time 200. -/
def dupWorld : World :=
  { inbox := [], claimed := [("0000000000000001_T1_u.json", FileContent.spec sleepSpec)],
    done := [], control := [], hb := [], logs := [], spawned := [], now := 200 }

/-- Closed witness for `C4_duplicate_key_skipped` on the concrete
duplicate-key world. -/
theorem C4_duplicate_key_skipped_w :
    (execute_task dupRunner dupWorld "0000000000000001_T1_u.json" 0 5).1
      = dupRunner ∧
    (execute_task dupRunner dupWorld "0000000000000001_T1_u.json" 0 5).2.1.spawned
      = dupWorld.spawned ∧
    (execute_task dupRunner dupWorld "0000000000000001_T1_u.json" 0 5).2.1.logs
      = dupWorld.logs ∧
    lookupFile (execute_task dupRunner dupWorld "0000000000000001_T1_u.json" 0 5).2.1.done
      (skippedName "0000000000000001_T1_u.json")
      = some (FileContent.result (skippedResult dupRunner sleepSpec dupWorld.now)) ∧
    lookupFile (execute_task dupRunner dupWorld "0000000000000001_T1_u.json" 0 5).2.1.done
      "0000000000000001_T1_u.json" = some (FileContent.spec sleepSpec) ∧
    lookupFile (execute_task dupRunner dupWorld "0000000000000001_T1_u.json" 0 5).2.1.claimed
      "0000000000000001_T1_u.json" = none ∧
    (execute_task dupRunner dupWorld "0000000000000001_T1_u.json" 0 5).2.2 = [] :=
  C4_duplicate_key_skipped dupRunner dupWorld "0000000000000001_T1_u.json"
    (FileContent.spec sleepSpec) sleepSpec 0 5 rfl rfl (by decide) (by decide)

/-! ## Dedup cache vs on-disk results (C5) -/

/-- The filename filter of `load_executed_keys` (main.rs lines 100-102):
extension `json` and a name ending in `.result.json`. -/
def goodResultName (n : String) : Bool :=
  strEnds n ".json" && strEnds n ".result.json"

/-- One step of the startup scan: decodable `*.result.json` records
contribute their `idempotency_key` (main.rs lines 97-107). -/
def loadStep (ks : List String) (e : String × FileContent) : List String :=
  if goodResultName e.1 then
    match decodeResult e.2 with
    | some res => ks ++ [res.idempotency_key]
    | none => ks
  else ks

/-- Embedding of `Runner::load_executed_keys`: scan `done/<node>/` and
collect the keys of all decodable `*.result.json` records. -/
def load_executed_keys (d : Dir) : List String := d.foldl loadStep []

/-- Key `k` belongs to some decodable `*.result.json` record in `d`. -/
def resultKeys (d : Dir) (k : String) : Prop :=
  ∃ n res, (n, FileContent.result res) ∈ d ∧ goodResultName n = true ∧
    res.idempotency_key = k

/-- The runner's dedup invariant: the in-memory key set is exactly the key
set of the decodable `*.result.json` records in `done/<node>/`. -/
def keysInv (r : Runner) (w : World) : Prop :=
  ∀ k, k ∈ r.executed_keys ↔ resultKeys w.done k

theorem resultKeys_nil (k : String) : ¬ resultKeys [] k := by
  rintro ⟨n, res, hmem, _, _⟩
  cases hmem

theorem resultKeys_cons {e : String × FileContent} {es : Dir} {k : String} :
    resultKeys (e :: es) k ↔
      (∃ res, e.2 = FileContent.result res ∧ goodResultName e.1 = true ∧
        res.idempotency_key = k) ∨ resultKeys es k := by
  unfold resultKeys
  constructor
  · rintro ⟨n, res, hmem, hgood, hk⟩
    rcases List.mem_cons.mp hmem with heq | hmem'
    · left
      refine ⟨res, ?_, ?_, hk⟩
      · rw [← heq]
      · rw [show e.1 = n by rw [← heq]]
        exact hgood
    · exact Or.inr ⟨n, res, hmem', hgood, hk⟩
  · rintro (⟨res, h2, hgood, hk⟩ | ⟨n, res, hmem, hgood, hk⟩)
    · exact ⟨e.1, res, by rw [List.mem_cons]; left; rw [Prod.ext_iff]; exact ⟨rfl, h2.symm⟩,
        hgood, hk⟩
    · exact ⟨n, res, List.mem_cons.mpr (Or.inr hmem), hgood, hk⟩

theorem mem_loadStep {acc : List String} {e : String × FileContent} {k : String} :
    k ∈ loadStep acc e ↔
      k ∈ acc ∨ (∃ res, e.2 = FileContent.result res ∧
        goodResultName e.1 = true ∧ res.idempotency_key = k) := by
  unfold loadStep
  by_cases hg : goodResultName e.1 = true
  · rw [if_pos hg]
    cases h2 : e.2 with
    | result res => simp [decodeResult, h2, hg, eq_comm]
    | spec s => simp [decodeResult, h2]
    | heartbeat h => simp [decodeResult, h2]
    | cancel c => simp [decodeResult, h2]
    | junk => simp [decodeResult, h2]
  · rw [if_neg hg]
    simp [hg]

theorem mem_load_aux (d : Dir) (acc : List String) (k : String) :
    k ∈ d.foldl loadStep acc ↔ k ∈ acc ∨ resultKeys d k := by
  induction d generalizing acc with
  | nil => simp [List.foldl_nil, resultKeys_nil k]
  | cons e es ih =>
    rw [List.foldl_cons, ih (loadStep acc e), mem_loadStep, resultKeys_cons,
      or_assoc]

theorem fst_mem_dirNames {d : Dir} {m : String} {x : FileContent}
    (h : (m, x) ∈ d) : m ∈ dirNames d :=
  List.mem_map_of_mem Prod.fst h

theorem resultKeys_writeFile_notGood {d : Dir} {n : String} {c : FileContent}
    (hn : goodResultName n = false) (k : String) :
    resultKeys (writeFile d n c) k ↔ resultKeys d k := by
  constructor
  · rintro ⟨m, res, hmem, hgood, hk⟩
    rcases mem_writeFile.mp hmem with ⟨rfl, _⟩ | ⟨hmem', _⟩
    · rw [hn] at hgood
      cases hgood
    · exact ⟨m, res, hmem', hgood, hk⟩
  · rintro ⟨m, res, hmem, hgood, hk⟩
    refine ⟨m, res, mem_writeFile.mpr (Or.inr ⟨hmem, ?_⟩), hgood, hk⟩
    intro h
    rw [h, hn] at hgood
    cases hgood

theorem resultKeys_writeFile_resultGood {d : Dir} {n : String} {res : TaskResult}
    (hg : goodResultName n = true) (hnotin : n ∉ dirNames d) (k : String) :
    resultKeys (writeFile d n (FileContent.result res)) k ↔
      (k = res.idempotency_key ∨ resultKeys d k) := by
  constructor
  · rintro ⟨m, res', hmem, hgood, hk⟩
    rcases mem_writeFile.mp hmem with ⟨rfl, hc⟩ | ⟨hmem', _⟩
    · left
      cases hc
      exact hk.symm
    · exact Or.inr ⟨m, res', hmem', hgood, hk⟩
  · rintro (rfl | ⟨m, res', hmem, hgood, hk⟩)
    · exact ⟨n, res, mem_writeFile.mpr (Or.inl ⟨rfl, rfl⟩), hg, rfl⟩
    · refine ⟨m, res', mem_writeFile.mpr (Or.inr ⟨hmem, ?_⟩), hgood, hk⟩
      intro h
      exact hnotin (h ▸ fst_mem_dirNames hmem)

theorem goodResultName_false_of_suffix {n : String}
    (h : strEnds n ".result.json" = false) : goodResultName n = false := by
  unfold goodResultName
  rw [h, Bool.and_false]

/-- Per-filename conditions under which one execution step keeps the dedup
cache aligned with the `done/` records; they hold for every actually
generated queue filename `<seq:016d>_<task_id>_<uuid>.json`. -/
def nameHygiene (w : World) : Prop :=
  ∀ n ∈ dirNames w.inbox,
    goodResultName (resultFileName n) = true ∧
    strEnds n ".result.json" = false ∧
    strEnds (skippedName n) ".result.json" = false ∧
    resultFileName n ∉ dirNames w.done

theorem execute_task_keysInv (r : Runner) (w : World) (f : String)
    (exitCode : Int) (dur : Nat)
    (hg1 : goodResultName (resultFileName f) = true)
    (hg2 : strEnds f ".result.json" = false)
    (hg3 : strEnds (skippedName f) ".result.json" = false)
    (hg4 : resultFileName f ∉ dirNames w.done)
    (hinv : keysInv r w) :
    keysInv (execute_task r w f exitCode dur).1
      (execute_task r w f exitCode dur).2.1 := by
  unfold execute_task
  cases hdec : decodeSpec ((lookupFile w.claimed f).getD FileContent.junk) with
  | none => exact hinv
  | some spec =>
    by_cases hk : spec.idempotency_key ∈ r.executed_keys
    · simp only [if_pos hk]
      intro k
      rw [resultKeys_writeFile_notGood (goodResultName_false_of_suffix hg2) k,
        resultKeys_writeFile_notGood (goodResultName_false_of_suffix hg3) k]
      exact hinv k
    · simp only [if_neg hk]
      intro k
      have hrn : resultFileName f ≠ f := by
        intro h
        have := hg1
        unfold goodResultName at this
        rw [h] at this
        rw [hg2, Bool.and_false] at this
        cases this
      simp only [update_heartbeat]
      rw [List.mem_append, List.mem_singleton]
      rw [resultKeys_writeFile_notGood (goodResultName_false_of_suffix hg2) k,
        resultKeys_writeFile_resultGood hg1 hg4 k]
      rw [hinv k]
      tauto

theorem poll_and_claim_done (w : World) (renameOk : Bool) :
    (poll_and_claim w renameOk).2.done = w.done := by
  unfold poll_and_claim
  cases list_files_sorted w.inbox with
  | nil => rfl
  | cons f l => cases renameOk <;> rfl

theorem poll_and_claim_some {w : World} {renameOk : Bool} {f : String}
    {w' : World} (h : poll_and_claim w renameOk = (some f, w')) :
    f ∈ dirNames w.inbox := by
  unfold poll_and_claim at h
  cases hl : list_files_sorted w.inbox with
  | nil =>
    rw [hl] at h
    cases h
  | cons g l =>
    rw [hl] at h
    cases renameOk with
    | false => cases h
    | true =>
      have hg : g = f := by
        have := congrArg Prod.fst h
        simpa using this
      have hmem : g ∈ list_files_sorted w.inbox := by
        rw [hl]
        exact List.mem_cons_self g l
      exact hg ▸ (mem_list_files_sorted.mp hmem).1

/-- C5: the runner's in-memory `executed_keys` set is exactly the key set of
the decodable `*.result.json` records in `done/<node>/`. First conjunct:
`load_executed_keys` establishes this at startup — a key is loaded iff some
decodable `*.result.json` record carries it, `*.skipped.json`,
`*.cancelled.json` and archived specs being ignored by the name filter.
Second conjunct: a full tick of the loop preserves the correspondence — in
particular each executed task inserts its key and writes the matching
`.result.json` in the same iteration — for every world whose filenames
satisfy the standard-name conditions `nameHygiene`. -/
theorem C5_executed_keys_invariant :
    (∀ (d : Dir) (k : String), k ∈ load_executed_keys d ↔ resultKeys d k) ∧
    (∀ (r : Runner) (w : World) (exitCode : Int) (dur : Nat) (renameOk : Bool),
      keysInv r w → nameHygiene w →
      keysInv (tick r w exitCode dur renameOk).1
        (tick r w exitCode dur renameOk).2.1) := by
  constructor
  · intro d k
    unfold load_executed_keys
    rw [mem_load_aux d [] k]
    simp
  · intro r w exitCode dur renameOk hinv hhyg
    unfold tick
    rcases hp : poll_and_claim
        (update_heartbeat r none { w with now := w.now + 1 }) renameOk
        with ⟨o, w₂⟩
    have hdone : w₂.done = w.done := by
      have := poll_and_claim_done
        (update_heartbeat r none { w with now := w.now + 1 }) renameOk
      rw [hp] at this
      exact this
    cases o with
    | none =>
      simp only [hp]
      intro k
      rw [hdone]
      exact hinv k
    | some f =>
      simp only [hp]
      have hf : f ∈ dirNames w.inbox := by
        have hf' := poll_and_claim_some hp
        simpa [update_heartbeat] using hf'
      rcases hhyg f hf with ⟨hg1, hg2, hg3, hg4⟩
      have hinv₂ : keysInv r w₂ := by
        intro k
        rw [hdone]
        exact hinv k
      have hg4' : resultFileName f ∉ dirNames w₂.done := by
        rw [hdone]
        exact hg4
      exact execute_task_keysInv r w₂ f exitCode dur hg1 hg2 hg3 hg4' hinv₂

/-- Closed witness for `C5_executed_keys_invariant`: the invariant survives
the tick that claims and executes the concrete one-task world. -/
theorem C5_executed_keys_invariant_w :
    keysInv (tick freshRunner sleepWorld 0 10 true).1
      (tick freshRunner sleepWorld 0 10 true).2.1 :=
  C5_executed_keys_invariant.2 freshRunner sleepWorld 0 10 true
    (fun k => iff_of_false (by simp [freshRunner]) (resultKeys_nil k))
    (by unfold nameHygiene; decide)

/-! ## Observer command-column helper (`leaseq/src/commands/tasks.rs`) -/

/-- Byte length of the UTF-8 encoding of a character list (Rust `str::len`). -/
def utf8Len (l : List Char) : Nat := (l.map Char.utf8Size).sum

/-- Take the first `i` bytes of a UTF-8 string as whole characters; `none`
when byte index `i` is not a character boundary (or exceeds the string) —
the situation in which Rust's byte slicing `&s[..i]` panics. -/
def byteTake : List Char → Nat → Option (List Char)
  | _, 0 => some []
  | [], _ + 1 => none
  | c :: t, i + 1 =>
    if c.utf8Size ≤ i + 1 then
      (byteTake t (i + 1 - c.utf8Size)).map (c :: ·)
    else none

/-- Embedding of `truncate` (tasks.rs lines 227-233): return `s` whole when
its byte length is at most `maxLen`, else slice the first `maxLen - 3` bytes
and append `"..."`. A `none` result models the Rust panic on a byte index
that is not a character boundary. -/
def truncate (s : String) (maxLen : Nat) : Option String :=
  if utf8Len s.data ≤ maxLen then some s
  else (byteTake s.data (maxLen - 3)).map (fun l => (⟨l⟩ : String) ++ "...")

/-- A command string of 36 ASCII characters followed by two euro signs:
42 bytes long, with byte index 37 falling inside the first euro sign. -/
def euroCommand : String := "aaaaaaaaaaaaaaaaaaaaaaaaaaaaaaaaaaaa€€"

theorem byteTake_ascii {l : List Char} (hl : ∀ c ∈ l, c.utf8Size = 1)
    {i : Nat} (hi : i ≤ l.length) : byteTake l i = some (l.take i) := by
  induction l generalizing i with
  | nil =>
    have : i = 0 := by simpa using hi
    rw [this]
    rfl
  | cons c t ih =>
    cases i with
    | zero => rfl
    | succ j =>
      have hc : c.utf8Size = 1 := hl c (List.mem_cons_self c t)
      unfold byteTake
      rw [if_pos (by omega : c.utf8Size ≤ j + 1)]
      rw [hc]
      have : j + 1 - 1 = j := by omega
      rw [this]
      rw [ih (fun x hx => hl x (List.mem_cons_of_mem c hx)) (by simpa using hi)]
      rfl

theorem utf8Len_ascii {l : List Char} (hl : ∀ c ∈ l, c.utf8Size = 1) :
    utf8Len l = l.length := by
  induction l with
  | nil => rfl
  | cons c t ih =>
    unfold utf8Len at ih ⊢
    rw [List.map_cons, List.sum_cons, hl c (List.mem_cons_self c t),
      ih (fun x hx => hl x (List.mem_cons_of_mem c hx)), List.length_cons]
    omega

theorem utf8Len_cons (c : Char) (t : List Char) :
    utf8Len (c :: t) = c.utf8Size + utf8Len t := by
  unfold utf8Len
  rw [List.map_cons, List.sum_cons]

theorem byteTake_of_isPrefix : ∀ {p l : List Char}, p <+: l →
    byteTake l (utf8Len p) = some p := by
  intro p
  induction p with
  | nil =>
    intro l _
    rw [show utf8Len ([] : List Char) = 0 from rfl]
    cases l with
    | nil => rfl
    | cons c t => rfl
  | cons c p' ih =>
    intro l hp
    rcases hp with ⟨t, ht⟩
    rw [List.cons_append] at ht
    subst ht
    have hpos := Char.utf8Size_pos c
    obtain ⟨m, hm⟩ : ∃ m, c.utf8Size = m + 1 := ⟨c.utf8Size - 1, by omega⟩
    rw [show utf8Len (c :: p') = (m + utf8Len p') + 1 from by
      rw [utf8Len_cons, hm]; omega]
    unfold byteTake
    rw [if_pos (by omega : c.utf8Size ≤ m + utf8Len p' + 1)]
    rw [show m + utf8Len p' + 1 - c.utf8Size = utf8Len p' from by omega]
    rw [ih ⟨t, rfl⟩]
    rfl

/-- C9 counterexample: `truncate` is not total. On the 42-byte command
`euroCommand`, byte index `40 - 3 = 37` falls inside the first multi-byte
character, so the Rust slice `&s[..37]` panics (modelled by `none`). -/
theorem C9_truncate_panics_on_multibyte :
    truncate euroCommand 40 = none := by
  decide

/-- C9 as amended: `truncate s 40` is total — it returns a string — for
every command `s` that is at most 40 bytes long or has a UTF-8 character
boundary at byte index 37 (a prefix of whole characters occupying exactly
37 bytes); in particular for every all-ASCII command (second conjunct).
Totality fails only when `s` is longer than 40 bytes and byte index 37
falls inside a multi-byte character, where the byte slice `&s[..37]`
panics (see the counterexample). -/
theorem C9_truncate_total_on_boundary (s : String) :
    ((utf8Len s.data ≤ 40 ∨ ∃ p, p <+: s.data ∧ utf8Len p = 37) →
      ∃ t, truncate s 40 = some t) ∧
    ((∀ c ∈ s.data, c.utf8Size = 1) → ∃ t, truncate s 40 = some t) := by
  have hmain : (utf8Len s.data ≤ 40 ∨ ∃ p, p <+: s.data ∧ utf8Len p = 37) →
      ∃ t, truncate s 40 = some t := by
    intro h
    unfold truncate
    by_cases hlen : utf8Len s.data ≤ 40
    · rw [if_pos hlen]
      exact ⟨s, rfl⟩
    · rw [if_neg hlen]
      rcases h with h | ⟨p, hp, h37⟩
      · exact absurd h hlen
      · have hbt : byteTake s.data (40 - 3) = some p := by
          have hb := byteTake_of_isPrefix hp
          rw [h37] at hb
          exact hb
        rw [hbt]
        exact ⟨_, rfl⟩
  refine ⟨hmain, ?_⟩
  intro hascii
  by_cases hlen : utf8Len s.data ≤ 40
  · exact hmain (Or.inl hlen)
  · refine hmain (Or.inr ⟨s.data.take 37, List.take_prefix 37 s.data, ?_⟩)
    have hsub : ∀ c ∈ s.data.take 37, c.utf8Size = 1 :=
      fun c hc => hascii c (List.mem_of_mem_take hc)
    rw [utf8Len_ascii hsub, List.length_take]
    rw [utf8Len_ascii hascii] at hlen
    omega

/-- A command of 37 ASCII characters followed by two euro signs: 43 bytes
long, longer than 40, with a character boundary exactly at byte 37. -/
def euroBoundaryCommand : String := "aaaaaaaaaaaaaaaaaaaaaaaaaaaaaaaaaaaaa€€"

/-- Closed witness for `C9_truncate_total_on_boundary`: the 43-byte command
with multi-byte characters but a boundary at byte 37 truncates without
panicking, and so does a concrete 44-byte all-ASCII command. -/
theorem C9_truncate_total_on_boundary_w :
    (∃ t, truncate euroBoundaryCommand 40 = some t) ∧
    (∃ t, truncate "cccccccccccccccccccccccccccccccccccccccccccc" 40 = some t) :=
  ⟨(C9_truncate_total_on_boundary euroBoundaryCommand).1
    (Or.inr ⟨List.replicate 37 'a', ⟨['€', '€'], by decide⟩, by decide⟩),
   (C9_truncate_total_on_boundary
     "cccccccccccccccccccccccccccccccccccccccccccc").2 (by decide)⟩

/-! ## Observer projection (`leaseq/src/commands/tasks.rs`) -/

/-- The observer's node-liveness map (`node_status: HashMap<String, bool>`). -/
def BoolMap := List (String × Bool)

/-- HashMap insert (last write wins on lookup). -/
def mapSet (m : BoolMap) (k : String) (v : Bool) : BoolMap :=
  (m : List (String × Bool)).filter (fun e => e.1 != k) ++ [(k, v)]

/-- HashMap lookup. -/
def mapGet (m : BoolMap) (k : String) : Option Bool :=
  ((m : List (String × Bool)).find? (fun e => e.1 == k)).map (·.2)

theorem mapGet_mapSet_self (m : BoolMap) (k : String) (v : Bool) :
    mapGet (mapSet m k v) k = some v := by
  induction m with
  | nil => simp [mapGet, mapSet]
  | cons e es ih =>
    by_cases h : e.1 = k
    · simp only [mapSet, mapGet, List.filter_cons] at ih ⊢
      simp only [h, bne_self_eq_false, Bool.false_eq_true, if_false]
      exact ih
    · simp only [mapSet, mapGet, List.filter_cons] at ih ⊢
      rw [(by simp [h] : (e.1 != k) = true)]
      simp only [if_true, List.cons_append]
      rw [List.find?_cons_of_neg]
      · exact ih
      · simp [h]

theorem mapGet_mapSet_ne (m : BoolMap) (k j : String) (v : Bool)
    (h : j ≠ k) : mapGet (mapSet m k v) j = mapGet m j := by
  induction m with
  | nil =>
    simp only [mapSet, mapGet, List.filter_nil, List.nil_append]
    rw [List.find?_cons_of_neg _ (by simp only [beq_iff_eq]; exact Ne.symm h)]
  | cons e es ih =>
    by_cases he : e.1 = k
    · simp only [mapSet, mapGet, List.filter_cons] at ih ⊢
      simp only [he, bne_self_eq_false, Bool.false_eq_true, if_false]
      rw [List.find?_cons_of_neg (l := es)]
      · exact ih
      · simp [he, Ne.symm h]
    · simp only [mapSet, mapGet, List.filter_cons] at ih ⊢
      rw [(by simp [he] : (e.1 != k) = true)]
      simp only [if_true, List.cons_append]
      by_cases hj : e.1 = j
      · rw [List.find?_cons_of_pos, List.find?_cons_of_pos] <;> simp [hj]
      · rw [List.find?_cons_of_neg, List.find?_cons_of_neg]
        · exact ih
        · simp [hj]
        · simp [hj]

theorem mem_dirNames_of_lookup {d : Dir} {n : String} {c : FileContent}
    (h : lookupFile d n = some c) : n ∈ dirNames d := by
  induction d with
  | nil => cases h
  | cons e es ih =>
    by_cases he : e.1 = n
    · unfold dirNames
      rw [List.map_cons, List.mem_cons]
      exact Or.inl he.symm
    · unfold lookupFile at h
      rw [List.find?_cons_of_neg _ (by simp [he])] at h
      unfold dirNames
      rw [List.map_cons, List.mem_cons]
      exact Or.inr (ih h)

/-- One step of the observer's heartbeat scan (tasks.rs lines 52-60): decode
the file; on success record `now − ts < 120 s` under the record's `node`
field, on failure skip the file. -/
def hbStep (hbDir : Dir) (now : Int) (m : BoolMap) (n : String) : BoolMap :=
  match decodeHb ((lookupFile hbDir n).getD FileContent.junk) with
  | some h => mapSet m h.node (decide (now - h.ts < 120))
  | none => m

/-- The observer's liveness map: fold the scan over the sorted `hb/` files. -/
def nodeStatus (hbDir : Dir) (now : Int) : BoolMap :=
  (list_files_sorted hbDir).foldl (hbStep hbDir now) []

/-- Liveness of node `n` (tasks.rs line 89): map lookup defaulting to dead. -/
def isAliveNode (hbDir : Dir) (now : Int) (n : String) : Bool :=
  (mapGet (nodeStatus hbDir now) n).getD false

/-- State displayed for a task file in `claimed/<n>/` (tasks.rs line 90). -/
def classifyClaimed (hbDir : Dir) (now : Int) (n : String) : String :=
  if isAliveNode hbDir now n then "RUNNING" else "STUCK"

/-- State displayed for a decodable result file in `done/<n>/`
(tasks.rs line 188). -/
def classifyResult (res : TaskResult) : String :=
  if res.exit_code == 0 then "DONE" else "FAILED"

theorem hbFold_target_some {hbDir : Dir} {now : Int} {n : String}
    {h₀ : Heartbeat}
    (hwf : ∀ m ∈ dirNames hbDir, ∀ h,
      decodeHb ((lookupFile hbDir m).getD FileContent.junk) = some h →
      (h.node = n ↔ m = n ++ ".json"))
    (htgt : decodeHb ((lookupFile hbDir (n ++ ".json")).getD FileContent.junk)
      = some h₀) :
    ∀ (l : List String) (m : BoolMap), (∀ x ∈ l, x ∈ dirNames hbDir) →
      mapGet (l.foldl (hbStep hbDir now) m) n =
        if (n ++ ".json") ∈ l then some (decide (now - h₀.ts < 120))
        else mapGet m n := by
  intro l
  induction l with
  | nil => intro m _; simp
  | cons x xs ih =>
    intro m hl
    rw [List.foldl_cons]
    by_cases hx : x = n ++ ".json"
    · subst hx
      have hstep : hbStep hbDir now m (n ++ ".json")
          = mapSet m h₀.node (decide (now - h₀.ts < 120)) := by
        unfold hbStep
        rw [htgt]
      have hnode : h₀.node = n :=
        (hwf (n ++ ".json") (hl _ (List.mem_cons_self _ _)) h₀ htgt).mpr rfl
      rw [hstep, ih _ (fun y hy => hl y (List.mem_cons_of_mem _ hy))]
      by_cases hmem : (n ++ ".json") ∈ xs
      · rw [if_pos hmem, if_pos (List.mem_cons_self _ _)]
      · rw [if_neg hmem, if_pos (List.mem_cons_self _ _), hnode]
        exact mapGet_mapSet_self m n _
    · have hxs : mapGet (xs.foldl (hbStep hbDir now) (hbStep hbDir now m x)) n
          = if (n ++ ".json") ∈ xs then some (decide (now - h₀.ts < 120))
            else mapGet (hbStep hbDir now m x) n :=
        ih _ (fun y hy => hl y (List.mem_cons_of_mem _ hy))
      have hstep : mapGet (hbStep hbDir now m x) n = mapGet m n := by
        unfold hbStep
        cases hdec : decodeHb ((lookupFile hbDir x).getD FileContent.junk) with
        | none => rfl
        | some h₁ =>
          have hne : h₁.node ≠ n := by
            intro heq
            exact hx ((hwf x (hl x (List.mem_cons_self _ _)) h₁ hdec).mp heq)
          exact mapGet_mapSet_ne m h₁.node n _ (Ne.symm hne)
      rw [hxs, hstep]
      by_cases hmem : (n ++ ".json") ∈ xs
      · rw [if_pos hmem, if_pos (List.mem_cons_of_mem _ hmem)]
      · rw [if_neg hmem, if_neg (by
          rw [List.mem_cons]
          rintro (h' | h')
          · exact hx h'.symm
          · exact hmem h')]

theorem hbFold_target_none {hbDir : Dir} {now : Int} {n : String}
    (hwf : ∀ m ∈ dirNames hbDir, ∀ h,
      decodeHb ((lookupFile hbDir m).getD FileContent.junk) = some h →
      (h.node = n ↔ m = n ++ ".json"))
    (htgt : decodeHb ((lookupFile hbDir (n ++ ".json")).getD FileContent.junk)
      = none) :
    ∀ (l : List String) (m : BoolMap), (∀ x ∈ l, x ∈ dirNames hbDir) →
      mapGet (l.foldl (hbStep hbDir now) m) n = mapGet m n := by
  intro l
  induction l with
  | nil => intro m _; rfl
  | cons x xs ih =>
    intro m hl
    rw [List.foldl_cons, ih _ (fun y hy => hl y (List.mem_cons_of_mem _ hy))]
    unfold hbStep
    cases hdec : decodeHb ((lookupFile hbDir x).getD FileContent.junk) with
    | none => rfl
    | some h₁ =>
      have hne : h₁.node ≠ n := by
        intro heq
        have hx := (hwf x (hl x (List.mem_cons_self _ _)) h₁ hdec).mp heq
        rw [hx] at hdec
        rw [htgt] at hdec
        cases hdec
      exact mapGet_mapSet_ne m h₁.node n _ (Ne.symm hne)

/-- C7: under the standard layout (each decodable file of `hb/` carries the
node matching its own filename), a task file in `claimed/<n>/` is shown
RUNNING iff `hb/<n>.json` exists, decodes, and satisfies `now − ts < 120 s`,
and STUCK otherwise — including when `hb/<n>.json` is missing or malformed;
and a decodable result file in `done/<n>/` is shown DONE iff its
`exit_code` is 0 and FAILED otherwise. -/
theorem C7_observer_classification :
    ∀ (hbDir : Dir) (now : Int) (n : String),
      (∀ m ∈ dirNames hbDir, ∀ h,
        decodeHb ((lookupFile hbDir m).getD FileContent.junk) = some h →
        (h.node = n ↔ m = n ++ ".json")) →
      strStarts (n ++ ".json") "." = false →
      ((classifyClaimed hbDir now n = "RUNNING" ↔
        (∃ h, decodeHb ((lookupFile hbDir (n ++ ".json")).getD FileContent.junk)
          = some h ∧ now - h.ts < 120)) ∧
       (classifyClaimed hbDir now n = "STUCK" ↔
        ¬ (∃ h, decodeHb ((lookupFile hbDir (n ++ ".json")).getD FileContent.junk)
          = some h ∧ now - h.ts < 120)) ∧
       (∀ res : TaskResult, classifyResult res = "DONE" ↔ res.exit_code = 0) ∧
       (∀ res : TaskResult, classifyResult res = "FAILED" ↔ res.exit_code ≠ 0)) := by
  intro hbDir now n hwf hdot
  have hresult : ∀ res : TaskResult,
      (classifyResult res = "DONE" ↔ res.exit_code = 0) ∧
      (classifyResult res = "FAILED" ↔ res.exit_code ≠ 0) := by
    intro res
    unfold classifyResult
    by_cases h : res.exit_code = 0
    · rw [if_pos (by simp [h])]
      constructor
      · exact iff_of_true rfl h
      · exact iff_of_false (by decide) (by simp [h])
    · rw [if_neg (by simp [h])]
      constructor
      · exact iff_of_false (by decide) h
      · exact iff_of_true rfl h
  have halive : (isAliveNode hbDir now n = true ↔
      (∃ h, decodeHb ((lookupFile hbDir (n ++ ".json")).getD FileContent.junk)
        = some h ∧ now - h.ts < 120)) := by
    unfold isAliveNode nodeStatus
    cases htgt : decodeHb ((lookupFile hbDir (n ++ ".json")).getD FileContent.junk) with
    | none =>
      rw [hbFold_target_none hwf htgt (list_files_sorted hbDir) []
        (fun x hx => (mem_list_files_sorted.mp hx).1)]
      constructor
      · intro h
        cases h
      · rintro ⟨h, hh, _⟩
        cases hh
    | some h₀ =>
      have hlk : ∃ c, lookupFile hbDir (n ++ ".json") = some c := by
        cases hl : lookupFile hbDir (n ++ ".json") with
        | none =>
          rw [hl] at htgt
          cases htgt
        | some c => exact ⟨c, rfl⟩
      rcases hlk with ⟨c, hc⟩
      have hmemdir : (n ++ ".json") ∈ dirNames hbDir := mem_dirNames_of_lookup hc
      have hmem : (n ++ ".json") ∈ list_files_sorted hbDir :=
        mem_list_files_sorted.mpr ⟨hmemdir, hdot⟩
      rw [hbFold_target_some hwf htgt (list_files_sorted hbDir) []
        (fun x hx => (mem_list_files_sorted.mp hx).1), if_pos hmem]
      simp only [Option.getD_some, decide_eq_true_eq]
      constructor
      · intro hfresh
        exact ⟨h₀, rfl, hfresh⟩
      · rintro ⟨h, hh, hfresh⟩
        cases hh
        exact hfresh
  refine ⟨?_, ?_, fun res => (hresult res).1, fun res => (hresult res).2⟩
  · unfold classifyClaimed
    by_cases ha : isAliveNode hbDir now n = true
    · rw [if_pos ha]
      exact iff_of_true rfl (halive.mp ha)
    · rw [if_neg ha]
      refine iff_of_false (by decide) ?_
      intro hex
      exact ha (halive.mpr hex)
  · unfold classifyClaimed
    by_cases ha : isAliveNode hbDir now n = true
    · rw [if_pos ha]
      refine iff_of_false (by decide) ?_
      intro hnex
      exact hnex (halive.mp ha)
    · rw [if_neg ha]
      refine iff_of_true rfl ?_
      intro hex
      exact ha (halive.mpr hex)

/-- A fresh heartbeat for node `n` written at time 95. -/
def hbFresh : Heartbeat :=
  { node := "n", ts := 95, running_task_id := some "T1",
    pending_estimate := 0, runner_pid := 1, version := "0.1.0" }

/-- An `hb/` directory holding exactly `n.json` with the fresh heartbeat. -/
def hbDirW : Dir := [("n.json", FileContent.heartbeat hbFresh)]

/-- Closed witness for `C7_observer_classification` on the concrete `hb/`
directory with one fresh heartbeat, read at time 100. -/
theorem C7_observer_classification_w :
    (classifyClaimed hbDirW 100 "n" = "RUNNING" ↔
      (∃ h, decodeHb ((lookupFile hbDirW ("n" ++ ".json")).getD FileContent.junk)
        = some h ∧ 100 - h.ts < 120)) ∧
    (classifyClaimed hbDirW 100 "n" = "STUCK" ↔
      ¬ (∃ h, decodeHb ((lookupFile hbDirW ("n" ++ ".json")).getD FileContent.junk)
        = some h ∧ 100 - h.ts < 120)) ∧
    (∀ res : TaskResult, classifyResult res = "DONE" ↔ res.exit_code = 0) ∧
    (∀ res : TaskResult, classifyResult res = "FAILED" ↔ res.exit_code ≠ 0) := by
  refine C7_observer_classification hbDirW 100 "n" ?_ (by decide)
  intro m hm h hdec
  have hm' : m = "n.json" := by simpa [dirNames, hbDirW] using hm
  subst hm'
  have hdec' : decodeHb ((lookupFile hbDirW "n.json").getD FileContent.junk)
      = some hbFresh := rfl
  rw [hdec'] at hdec
  cases hdec
  decide

/-! ## Inbox filename ordering (C8, `add.rs` line 57) -/

/-- The character for a decimal digit `d < 10`. -/
def digitChar (d : Nat) : Char := Char.ofNat (48 + d)

/-- Little-endian decimal digits with explicit fuel (structurally recursive so
that concrete filenames evaluate inside the kernel); agrees with
`Nat.digits 10 n` whenever `n ≤ fuel`. -/
def natDigitsRev (fuel n : Nat) : List Nat :=
  match fuel with
  | 0 => []
  | fuel + 1 => if n = 0 then [] else (n % 10) :: natDigitsRev fuel (n / 10)

theorem natDigitsRev_eq_digits : ∀ (fuel n : Nat), n ≤ fuel →
    natDigitsRev fuel n = Nat.digits 10 n := by
  intro fuel
  induction fuel with
  | zero =>
    intro n hn
    have : n = 0 := Nat.le_zero.mp hn
    subst this
    simp [natDigitsRev]
  | succ f ih =>
    intro n hn
    unfold natDigitsRev
    by_cases h0 : n = 0
    · subst h0
      simp
    · rw [if_neg h0, Nat.digits_def' (by norm_num : (1:ℕ) < 10) (Nat.pos_of_ne_zero h0)]
      rw [ih (n / 10) ?_]
      have h10 : n / 10 < n := Nat.div_lt_self (Nat.pos_of_ne_zero h0) (by norm_num)
      omega

/-- Big-endian decimal rendering of a natural number, as Rust's `Display`
for `u64` produces it (`"0"` for zero, no leading zeros otherwise). -/
def decimalDigits (n : Nat) : List Char :=
  if n = 0 then ['0'] else ((natDigitsRev n n).map digitChar).reverse

/-- Rust's `format!` with spec `{:016}`: the decimal rendering left-padded
with zeros to width 16. -/
def pad16 (n : Nat) : String :=
  ⟨List.replicate (16 - (decimalDigits n).length) '0' ++ decimalDigits n⟩

/-- The inbox basename `<seq:016d>_<task_id>_<uuid>.json` (add.rs line 57). -/
def taskFileName (seq : Nat) (task_id uuid : String) : String :=
  pad16 seq ++ "_" ++ task_id ++ "_" ++ uuid ++ ".json"

/-- A decimal digit character: one of `'0'` through `'9'`. -/
def digitOk (c : Char) : Prop := 48 ≤ c.toNat ∧ c.toNat < 58

/-- Numeric value of a big-endian string of digit characters. -/
def digitsVal : List Char → Nat
  | [] => 0
  | c :: t => (c.toNat - 48) * 10 ^ t.length + digitsVal t

theorem digitChar_toNat {d : Nat} (hd : d < 10) : (digitChar d).toNat = 48 + d := by
  interval_cases d <;> decide

theorem digitOk_digitChar {d : Nat} (hd : d < 10) : digitOk (digitChar d) := by
  constructor <;> rw [digitChar_toNat hd] <;> omega

theorem digitsVal_append_single (l : List Char) (c : Char) :
    digitsVal (l ++ [c]) = 10 * digitsVal l + (c.toNat - 48) := by
  induction l with
  | nil => simp [digitsVal]
  | cons a t ih =>
    rw [List.cons_append]
    unfold digitsVal
    rw [ih, List.length_append, List.length_singleton]
    ring

theorem digitsVal_revmap (L : List Nat) (hL : ∀ d ∈ L, d < 10) :
    digitsVal ((L.map digitChar).reverse) = Nat.ofDigits 10 L := by
  induction L with
  | nil => rfl
  | cons d L' ih =>
    rw [List.map_cons, List.reverse_cons, digitsVal_append_single,
      ih (fun x hx => hL x (List.mem_cons_of_mem d hx)),
      digitChar_toNat (hL d (List.mem_cons_self d L')), Nat.ofDigits_cons]
    omega

theorem digitsVal_decimalDigits (n : Nat) : digitsVal (decimalDigits n) = n := by
  unfold decimalDigits
  by_cases h0 : n = 0
  · subst h0
    decide
  · rw [if_neg h0, natDigitsRev_eq_digits n n le_rfl,
      digitsVal_revmap _ (fun d hd => Nat.digits_lt_base (by norm_num) hd),
      Nat.ofDigits_digits]

theorem decimalDigits_digitOk (n : Nat) : ∀ c ∈ decimalDigits n, digitOk c := by
  by_cases h0 : n = 0
  · subst h0
    intro c hc
    rw [show decimalDigits 0 = ['0'] from rfl, List.mem_singleton] at hc
    subst hc
    exact ⟨by decide, by decide⟩
  · intro c hc
    unfold decimalDigits at hc
    rw [if_neg h0] at hc
    rw [List.mem_reverse, List.mem_map] at hc
    rcases hc with ⟨d, hd, rfl⟩
    rw [natDigitsRev_eq_digits n n le_rfl] at hd
    exact digitOk_digitChar (Nat.digits_lt_base (by norm_num) hd)

theorem decimalDigits_ne_nil (n : Nat) : decimalDigits n ≠ [] := by
  unfold decimalDigits
  by_cases h0 : n = 0
  · subst h0
    simp
  · rw [if_neg h0]
    intro h
    rw [List.reverse_eq_nil_iff, List.map_eq_nil_iff,
      natDigitsRev_eq_digits n n le_rfl, Nat.digits_eq_nil_iff_eq_zero] at h
    exact h0 h

theorem decimalDigits_len_le {n : Nat} (h : n < 10 ^ 16) :
    (decimalDigits n).length ≤ 16 := by
  unfold decimalDigits
  by_cases h0 : n = 0
  · subst h0
    simp
  · rw [if_neg h0, List.length_reverse, List.length_map,
      natDigitsRev_eq_digits n n le_rfl,
      Nat.digits_len 10 n (by norm_num) h0]
    have := (Nat.lt_pow_iff_log_lt (by norm_num : 1 < 10) h0).mp h
    omega

theorem digitsVal_lt {l : List Char} (hl : ∀ c ∈ l, digitOk c) :
    digitsVal l < 10 ^ l.length := by
  induction l with
  | nil => decide
  | cons c t ih =>
    unfold digitsVal
    rw [List.length_cons, pow_succ]
    have hc := hl c (List.mem_cons_self c t)
    have h9 : c.toNat - 48 ≤ 9 := by
      rcases hc with ⟨_, h2⟩
      omega
    have ht : digitsVal t < 10 ^ t.length :=
      ih (fun x hx => hl x (List.mem_cons_of_mem c hx))
    calc (c.toNat - 48) * 10 ^ t.length + digitsVal t
        < (c.toNat - 48) * 10 ^ t.length + 10 ^ t.length := by omega
      _ = ((c.toNat - 48) + 1) * 10 ^ t.length := by ring
      _ ≤ 10 * 10 ^ t.length := by
          have : (c.toNat - 48) + 1 ≤ 10 := by omega
          exact Nat.mul_le_mul_right _ this
      _ = 10 ^ t.length * 10 := by ring

theorem charLt_iff (c₁ c₂ : Char) : c₁ < c₂ ↔ c₁.toNat < c₂.toNat := Iff.rfl

theorem digitsVal_cons (c : Char) (t : List Char) :
    digitsVal (c :: t) = (c.toNat - 48) * 10 ^ t.length + digitsVal t := rfl

theorem digitsVal_lt_lex : ∀ (l₁ l₂ : List Char), l₁.length = l₂.length →
    (∀ c ∈ l₁, digitOk c) → (∀ c ∈ l₂, digitOk c) →
    digitsVal l₁ < digitsVal l₂ → List.Lex (· < ·) l₁ l₂ := by
  intro l₁
  induction l₁ with
  | nil =>
    intro l₂ _ _ _ hv
    cases l₂ with
    | nil => cases lt_irrefl _ hv
    | cons b bs => exact List.Lex.nil
  | cons c₁ t₁ ih =>
    intro l₂ hlen h1 h2 hv
    cases l₂ with
    | nil => cases hlen
    | cons c₂ t₂ =>
      have hlen' : t₁.length = t₂.length := by simpa using hlen
      rcases lt_trichotomy c₁ c₂ with hlt | heq | hgt
      · exact List.Lex.rel hlt
      · subst heq
        refine List.Lex.cons (ih t₂ hlen'
          (fun x hx => h1 x (List.mem_cons_of_mem c₁ hx))
          (fun x hx => h2 x (List.mem_cons_of_mem c₁ hx)) ?_)
        unfold digitsVal at hv
        rw [hlen'] at hv
        exact Nat.lt_of_add_lt_add_left hv
      · exfalso
        have hc1 := h1 c₁ (List.mem_cons_self c₁ t₁)
        have hc2 := h2 c₂ (List.mem_cons_self c₂ t₂)
        have hton : c₂.toNat < c₁.toNat := (charLt_iff c₂ c₁).mp hgt
        have hv2 : digitsVal t₂ < 10 ^ t₂.length :=
          digitsVal_lt (fun x hx => h2 x (List.mem_cons_of_mem c₂ hx))
        unfold digitsVal at hv
        rw [hlen'] at hv
        have hstep : (c₂.toNat - 48) + 1 ≤ c₁.toNat - 48 := by
          rcases hc2 with ⟨h48, _⟩
          omega
        have h1' : ((c₂.toNat - 48) + 1) * 10 ^ t₂.length
            ≤ (c₁.toNat - 48) * 10 ^ t₂.length :=
          Nat.mul_le_mul_right _ hstep
        rw [Nat.succ_mul] at h1'
        linarith

theorem lex_append : ∀ {l₁ l₂ : List Char}, List.Lex (· < ·) l₁ l₂ →
    l₁.length = l₂.length → ∀ (r₁ r₂ : List Char),
    List.Lex (· < ·) (l₁ ++ r₁) (l₂ ++ r₂) := by
  intro l₁ l₂ h
  induction h with
  | nil =>
    intro hlen r₁ r₂
    simp at hlen
  | rel hab =>
    intro _ r₁ r₂
    exact List.Lex.rel hab
  | cons h ih =>
    intro hlen r₁ r₂
    exact List.Lex.cons (ih (by simpa using hlen) r₁ r₂)

theorem digitsVal_replicate_zero (z : Nat) (l : List Char) :
    digitsVal (List.replicate z '0' ++ l) = digitsVal l := by
  induction z with
  | zero => rfl
  | succ k ih =>
    rw [List.replicate_succ, List.cons_append, digitsVal_cons, ih]
    have h0 : ('0').toNat = 48 := rfl
    rw [h0]
    omega

theorem pad16_data (n : Nat) : (pad16 n).data
    = List.replicate (16 - (decimalDigits n).length) '0' ++ decimalDigits n := rfl

theorem pad16_length {n : Nat} (h : n < 10 ^ 16) : (pad16 n).data.length = 16 := by
  rw [pad16_data, List.length_append, List.length_replicate]
  have := decimalDigits_len_le h
  omega

theorem pad16_digitOk (n : Nat) : ∀ c ∈ (pad16 n).data, digitOk c := by
  rw [pad16_data]
  intro c hc
  rcases List.mem_append.mp hc with hc | hc
  · rw [List.eq_of_mem_replicate hc]
    exact ⟨by decide, by decide⟩
  · exact decimalDigits_digitOk n c hc

theorem pad16_val (n : Nat) : digitsVal (pad16 n).data = n := by
  rw [pad16_data, digitsVal_replicate_zero, digitsVal_decimalDigits]

theorem pad16_lex {a b : Nat} (hab : a < b) (hb : b < 10 ^ 16) :
    List.Lex (· < ·) (pad16 a).data (pad16 b).data := by
  refine digitsVal_lt_lex _ _ ?_ (pad16_digitOk a) (pad16_digitOk b) ?_
  · rw [pad16_length (lt_trans hab hb), pad16_length hb]
  · rw [pad16_val, pad16_val]
    exact hab

theorem taskFileName_data (seq : Nat) (tid uuid : String) :
    (taskFileName seq tid uuid).data
      = (pad16 seq).data ++ ("_" ++ tid ++ "_" ++ uuid ++ ".json").data := by
  unfold taskFileName
  simp [String.data_append, List.append_assoc]

theorem taskFileName_lt {s1 s2 : Nat} (t1 u1 t2 u2 : String)
    (h12 : s1 < s2) (hbound : s2 < 10 ^ 16) :
    taskFileName s1 t1 u1 < taskFileName s2 t2 u2 := by
  rw [String.lt_iff_toList_lt]
  show List.Lex (· < ·) (taskFileName s1 t1 u1).data (taskFileName s2 t2 u2).data
  rw [taskFileName_data, taskFileName_data]
  exact lex_append (pad16_lex h12 hbound)
    (by rw [pad16_length (lt_trans h12 hbound), pad16_length hbound]) _ _

theorem pad16_head (n : Nat) :
    ∃ c t, (pad16 n).data = c :: t ∧ digitOk c := by
  rw [pad16_data]
  cases hz : List.replicate (16 - (decimalDigits n).length) '0' with
  | nil =>
    rw [List.nil_append]
    cases hd : decimalDigits n with
    | nil => exact absurd hd (decimalDigits_ne_nil n)
    | cons c t =>
      refine ⟨c, t, rfl, ?_⟩
      have := decimalDigits_digitOk n c
      rw [hd] at this
      exact this (List.mem_cons_self c t)
  | cons z zs =>
    refine ⟨z, zs ++ decimalDigits n, by rw [List.cons_append], ?_⟩
    have : z ∈ List.replicate (16 - (decimalDigits n).length) '0' := by
      rw [hz]
      exact List.mem_cons_self z zs
    rw [List.eq_of_mem_replicate this]
    exact ⟨by decide, by decide⟩

theorem taskFileName_not_dot (seq : Nat) (tid uuid : String) :
    strStarts (taskFileName seq tid uuid) "." = false := by
  rcases pad16_head seq with ⟨c, t, hdata, hok⟩
  have hfull : (taskFileName seq tid uuid).data
      = c :: (t ++ ("_" ++ tid ++ "_" ++ uuid ++ ".json").data) := by
    rw [taskFileName_data, hdata, List.cons_append]
  have hne : ('.' == c) = false := by
    rw [beq_eq_false_iff_ne]
    intro heq
    rw [← heq] at hok
    rcases hok with ⟨h48, _⟩
    have h46 : ('.').toNat = 46 := rfl
    omega
  unfold strStarts
  rw [hfull]
  have hdot : (".").data = ['.'] := rfl
  rw [hdot]
  simp [List.isPrefixOf, hne]

/-- C8: the submitter's inbox filenames `<seq:016d>_<task_id>_<uuid>.json`
sort lexicographically by `seq` — for any two specs with `seq` below `10^16`
the smaller `seq` gives the lexicographically smaller filename — and since
`poll_and_claim` takes the least entry of the sorted listing, while the
earlier spec's file is present in the inbox the runner never claims the
later one, i.e. S1 is claimed strictly before S2. -/
theorem C8_inbox_filename_order (s1 s2 : Nat) (t1 u1 t2 u2 : String)
    (h12 : s1 < s2) (hbound : s2 < 10 ^ 16) :
    taskFileName s1 t1 u1 < taskFileName s2 t2 u2 ∧
    ∀ (w : World), taskFileName s1 t1 u1 ∈ dirNames w.inbox →
      (poll_and_claim w true).1 ≠ some (taskFileName s2 t2 u2) := by
  have hlt : taskFileName s1 t1 u1 < taskFileName s2 t2 u2 :=
    taskFileName_lt t1 u1 t2 u2 h12 hbound
  refine ⟨hlt, ?_⟩
  intro w hmem hclaim
  cases hl : list_files_sorted w.inbox with
  | nil =>
    have hin : taskFileName s1 t1 u1 ∈ list_files_sorted w.inbox :=
      mem_list_files_sorted.mpr ⟨hmem, taskFileName_not_dot s1 t1 u1⟩
    rw [hl] at hin
    cases hin
  | cons f rest =>
    have hfst : (poll_and_claim w true).1 = some f := by
      unfold poll_and_claim
      rw [hl]
      rfl
    rw [hfst] at hclaim
    have hf2 : f = taskFileName s2 t2 u2 := Option.some.inj hclaim
    have hsort : sortStrings ((dirNames w.inbox).filter
        (fun n => !(strStarts n "."))) = f :: rest := by
      unfold list_files_sorted at hl
      exact hl
    have hmin : strLeB f (taskFileName s1 t1 u1) = true :=
      head_sortStrings_le hsort
        (List.mem_filter.mpr ⟨hmem, by simp [taskFileName_not_dot]⟩)
    rw [strLeB_iff, hf2] at hmin
    exact absurd hlt (not_lt.mpr hmin)

/-- An inbox holding the later spec's file first in directory order, so that
only sorting can put the earlier one ahead. -/
def c8World : World :=
  { inbox := [(taskFileName 7 "Tb" "ub", FileContent.junk),
              (taskFileName 5 "Ta" "ua", FileContent.junk)],
    claimed := [], done := [], control := [], hb := [], logs := [],
    spawned := [], now := 0 }

/-- Closed witness for `C8_inbox_filename_order`: with both files present the
runner does not claim the `seq = 7` file while the `seq = 5` file is there. -/
theorem C8_inbox_filename_order_w :
    taskFileName 5 "Ta" "ua" < taskFileName 7 "Tb" "ub" ∧
    (poll_and_claim c8World true).1 ≠ some (taskFileName 7 "Tb" "ub") := by
  have h := C8_inbox_filename_order 5 7 "Ta" "ua" "Tb" "ub"
    (by norm_num) (by norm_num)
  exact ⟨h.1, h.2 c8World (by decide)⟩

end LeaseQ
